import Mathlib

/-!
A formal model of the ATM cash-dispensing core (`atm_core.py`): the
inventory store, the backtracking breakdown solver (`get_breakdown`),
the withdrawal transaction (`withdraw`), the admin operation
(`add_cash`) and the persistence layer (`load_state` / `save_state`).

The Python `dict` holding note counts is modelled as an association
list with pairwise-distinct keys; calls to `save_state` are recorded
in a `saved` field of each operation's result instead of performed.
-/

namespace ATM

/-- The in-memory inventory `self.cash`: a finite map from denomination
to note count, modelled as an association list (a `dict` has distinct
keys; see `NodupKeys`). Counts are integers: nothing in the code pins
them to be non-negative. -/
abbrev Inv := List (Nat × Int)

/-- A withdrawal plan: notes to dispense per denomination; the solver
only ever records positive counts. -/
abbrev Plan := List (Nat × Nat)

/-- The error taxonomy of `exceptions.py` as `withdraw`/`add_cash`
raise it. -/
inductive ATMErr where
  | invalidAmount (msg : String)
  | insufficientFunds (msg : String)
deriving DecidableEq, Repr

/-- The default state `{500: 20, 200: 20, 100: 20}` set in `__init__`. -/
def default_cash : Inv := [(500, 20), (200, 20), (100, 20)]

/-- Dictionary lookup `inv[d]`; `none` models a `KeyError`. -/
def lookup? (inv : Inv) (d : Nat) : Option Int :=
  match inv with
  | [] => none
  | p :: rest => if p.1 = d then some p.2 else lookup? rest d

/-- Membership test `d in self.cash`. -/
def hasKey (inv : Inv) (d : Nat) : Bool :=
  inv.any (fun p => p.1 == d)

/-- The keys of the association list, in order. -/
def keysOf (inv : Inv) : List Nat := inv.map Prod.fst

/-- The `dict` invariant: keys are pairwise distinct. -/
def NodupKeys (inv : Inv) : Prop := (keysOf inv).Nodup

instance (inv : Inv) : Decidable (NodupKeys inv) := by
  unfold NodupKeys
  infer_instance

/-- `self.cash[d] += k`. -/
def incKey (inv : Inv) (d : Nat) (k : Int) : Inv :=
  inv.map (fun p => if p.1 = d then (p.1, p.2 + k) else p)

/-- `self.cash[d] -= k`. -/
def decKey (inv : Inv) (d : Nat) (k : Nat) : Inv :=
  inv.map (fun p => if p.1 = d then (p.1, p.2 - (k : Int)) else p)

/-- `for denom, count in plan.items(): self.cash[denom] -= count`. -/
def applyPlan (inv : Inv) (plan : Plan) : Inv :=
  plan.foldl (fun acc p => decKey acc p.1 p.2) inv

/-- `total_balance = sum(k * v for k, v in self.cash.items())`. -/
def total_balance (inv : Inv) : Int :=
  (inv.map (fun p => (p.1 : Int) * p.2)).sum

/-- Insert a pair into a list already ordered by key descending. -/
def insertDesc (p : Nat × Int) : List (Nat × Int) → List (Nat × Int)
  | [] => [p]
  | q :: qs => if q.1 ≤ p.1 then p :: q :: qs else q :: insertDesc p qs

/-- `denominations = sorted(self.cash.keys(), reverse=True)` paired with
each key's count: the inventory ordered by denomination, largest first. -/
def sortDesc (inv : Inv) : List (Nat × Int) :=
  inv.foldr insertDesc []

/-- `max_use = min(self.cash[denom], target // denom)`. -/
def maxUse (c : Int) (target denom : Nat) : Int :=
  min c ((target / denom : Nat) : Int)

/-- `range(max_use, -1, -1)`: the counts `max_use, max_use - 1, ..., 0`;
empty when `max_use < 0` (a negative stored count makes the loop body
never run). -/
def countRange (m : Int) : List Nat :=
  if m < 0 then [] else (List.range (m.toNat + 1)).reverse

/-- The `for count in range(max_use, -1, -1)` loop body of `solve`:
try each count in order; on the first success merge `count` into the
returned plan when it is positive and stop. -/
def tryCounts (f : Nat → Option Plan) (denom : Nat) (target : Nat) :
    List Nat → Option Plan
  | [] => none
  | k :: ks =>
    match f (target - k * denom) with
    | some r => some (if 0 < k then (denom, k) :: r else r)
    | none => tryCounts f denom target ks

/-- `solve(target, idx)` of `get_breakdown`, with the suffix of the
descending denomination list from index `idx` passed explicitly. -/
def solve : List (Nat × Int) → Nat → Option Plan
  | _, 0 => some []
  | [], _ + 1 => none
  | (denom, c) :: rest, t + 1 =>
    tryCounts (fun t' => solve rest t') denom (t + 1)
      (countRange (maxUse c (t + 1) denom))

/-- `get_breakdown(amount)`: run the backtracking search over the
denominations sorted descending. -/
def get_breakdown (inv : Inv) (amount : Nat) : Option Plan :=
  solve (sortDesc inv) amount

instance {ε α : Type} [DecidableEq ε] [DecidableEq α] : DecidableEq (Except ε α) :=
  fun x y =>
  match x, y with
  | .ok a, .ok b =>
    if h : a = b then isTrue (by rw [h]) else isFalse (fun hc => h (Except.ok.inj hc))
  | .error a, .error b =>
    if h : a = b then isTrue (by rw [h]) else isFalse (fun hc => h (Except.error.inj hc))
  | .ok _, .error _ => isFalse Except.noConfusion
  | .error _, .ok _ => isFalse Except.noConfusion

/-- The outcome of `withdraw`: the returned plan or raised error, the
in-memory cash afterwards, and the states passed to `save_state`. -/
structure TxResult where
  res : Except ATMErr Plan
  cash : Inv
  saved : List Inv
deriving DecidableEq, Repr

/-- `withdraw(amount)` of `atm_core.py`. The `if not plan` test treats
both `None` and an empty dict as failure. -/
def withdraw (inv : Inv) (amount : Int) : TxResult :=
  if amount ≤ 0 then
    ⟨.error (.invalidAmount "Amount must be positive."), inv, []⟩
  else if amount % 100 ≠ 0 then
    ⟨.error (.invalidAmount "Amount must be a multiple of 100."), inv, []⟩
  else if total_balance inv < amount then
    ⟨.error (.insufficientFunds "ATM Insufficient funds."), inv, []⟩
  else
    match get_breakdown inv amount.toNat with
    | none =>
      ⟨.error (.insufficientFunds "Cannot dispense this amount with available notes."),
        inv, []⟩
    | some [] =>
      ⟨.error (.insufficientFunds "Cannot dispense this amount with available notes."),
        inv, []⟩
    | some plan =>
      let newCash := applyPlan inv plan
      ⟨.ok plan, newCash, [newCash]⟩

/-- The outcome of `add_cash`: the returned message or raised error,
the cash afterwards, and the states passed to `save_state`. -/
structure AddResult where
  res : Except ATMErr String
  cash : Inv
  saved : List Inv
deriving DecidableEq, Repr

/-- `add_cash(denomination, count)` of `atm_core.py`. There is no check
on `count`: it is added as given. -/
def add_cash (inv : Inv) (denomination : Nat) (count : Int) : AddResult :=
  if ¬ hasKey inv denomination then
    ⟨.error (.invalidAmount ("Invalid denomination " ++ toString denomination)), inv, []⟩
  else
    let newCash := incKey inv denomination count
    ⟨.ok ("Admin added " ++ toString count ++ " notes of ₹" ++ toString denomination),
      newCash, [newCash]⟩

/-- A JSON value as far as the load loop of `load_state` inspects it: an
integer, or anything else (string, float, object, ...), which the loop
keeps without looking at it. -/
inductive JVal where
  | jint (n : Int)
  | jother
deriving DecidableEq, Repr

/-- A JSON object key as far as `int(k)` is concerned: either `int(k)`
succeeds with value `n`, or it raises `ValueError`. -/
inductive JKey where
  | intKey (n : Int)
  | badKey
deriving DecidableEq, Repr

/-- The persisted state file as `load_state` can find it: missing, not
parseable as JSON, or parsed into an object's key/value pairs. -/
inductive FileData where
  | absent
  | unparseable
  | parsed (entries : List (JKey × JVal))
deriving DecidableEq, Repr

/-- `{int(k): v for k, v in data.items()}`: `none` models the
`ValueError` raised by `int(k)` on a non-integer key. Values are kept
as they are, whatever they hold. -/
def convertKeys : List (JKey × JVal) → Option (List (Int × JVal))
  | [] => some []
  | (JKey.intKey n, v) :: rest => (convertKeys rest).map (fun l => (n, v) :: l)
  | (JKey.badKey, _) :: _ => none

/-- The outcome of `load_state`: the in-memory cash afterwards, the
states passed to `save_state`, and whether the corrupt-state branch
(`log_system_error("Corrupt state file found. Resetting.", ...)`) ran. -/
structure LoadResult where
  cash : List (Int × JVal)
  saved : List (List (Int × JVal))
  corruptLogged : Bool
deriving DecidableEq, Repr

/-- The default mapping `{500: 20, 200: 20, 100: 20}` as the load layer
sees it. -/
def defaultCashJ : List (Int × JVal) :=
  [(500, .jint 20), (200, .jint 20), (100, .jint 20)]

/-- `load_state` of `atm_core.py`, given the current in-memory cash
`cur` (the `__init__` default when called from the constructor) and the
condition of the state file. When the file is missing or corrupt the
assignment to `self.cash` never happens, so `cur` stays in place and is
what `save_state` persists. -/
def load_state (cur : List (Int × JVal)) : FileData → LoadResult
  | .absent => ⟨cur, [cur], false⟩
  | .unparseable => ⟨cur, [cur], true⟩
  | .parsed entries =>
    match convertKeys entries with
    | some newCash => ⟨newCash, [], false⟩
    | none => ⟨cur, [cur], true⟩

/-- `json.dump(self.cash, f)` on an integer-valued inventory: each
integer key is written in its decimal string form — modelled by its
base-10 digit list — and each integer value as itself. -/
def json_dump_cash (inv : Inv) : List (List Nat × Int) :=
  inv.map (fun p => (Nat.digits 10 p.1, p.2))

/-- `{int(k): v for k, v in json.load(f).items()}` on a file holding an
integer-valued mapping: each decimal key string is parsed back to the
number it denotes. -/
def json_load_cash (file : List (List Nat × Int)) : Inv :=
  file.map (fun p => (Nat.ofDigits 10 p.1, p.2))

/-- `sum(denom * count)` over a withdrawal plan. -/
def planSum (plan : Plan) : Nat :=
  (plan.map (fun p => p.1 * p.2)).sum

/-- The total number of notes a plan dispenses for denomination `d`
(the plan's count at `d` when its keys are distinct, else their sum). -/
def planCountI (plan : Plan) (d : Nat) : Int :=
  (plan.map (fun p => if p.1 = d then (p.2 : Int) else 0)).sum

/-- The smallest configured denomination (0 for an empty inventory). -/
def minDenom (inv : Inv) : Nat :=
  match keysOf inv with
  | [] => 0
  | k :: ks => ks.foldl Nat.min k

/-- A count assignment for the ordered denomination list `pairs` that is
within each denomination's available notes and pays `t` exactly: the
spec's notion of `t` being expressible in the available notes. -/
def ValidAssign (pairs : List (Nat × Int)) (q : List Nat) (t : Nat) : Prop :=
  List.Forall₂ (fun (p : Nat × Int) (k : Nat) => (k : Int) ≤ p.2) pairs q ∧
    (List.zipWith (fun (p : Nat × Int) (k : Nat) => k * p.1) pairs q).sum = t

/-- The amount `t` is expressible in the available notes of `inv`. -/
def Expressible (inv : Inv) (t : Nat) : Prop :=
  ∃ q, ValidAssign (sortDesc inv) q t

/-- Every stored note count is non-negative. -/
def allNonneg (inv : Inv) : Bool :=
  inv.all (fun p => decide (0 ≤ p.2))

end ATM

namespace ATM

theorem solve_zero (pairs : List (Nat × Int)) : solve pairs 0 = some [] := by
  cases pairs with
  | nil => rfl
  | cons p rest => rfl

theorem solve_nil {t : Nat} (h : t ≠ 0) : solve [] t = none := by
  cases t with
  | zero => exact absurd rfl h
  | succ n => rfl

theorem solve_cons {d : Nat} {c : Int} {rest : List (Nat × Int)} {t : Nat} (h : t ≠ 0) :
    solve ((d, c) :: rest) t =
      tryCounts (fun t' => solve rest t') d t (countRange (maxUse c t d)) := by
  cases t with
  | zero => exact absurd rfl h
  | succ n => rfl

theorem mem_countRange {k : Nat} {m : Int} : k ∈ countRange m ↔ (k : Int) ≤ m := by
  unfold countRange
  split
  · rename_i hm
    simp only [List.not_mem_nil, false_iff, not_le]
    omega
  · rename_i hm
    push_neg at hm
    simp only [List.mem_reverse, List.mem_range]
    omega

theorem countRange_pairwise (m : Int) : (countRange m).Pairwise (fun a b => b < a) := by
  unfold countRange
  split
  · exact List.Pairwise.nil
  · rw [List.pairwise_reverse]
    exact List.pairwise_lt_range _

theorem tryCounts_some_elim {f : Nat → Option Plan} {d t : Nat} {counts : List Nat}
    {P : Plan} (h : tryCounts f d t counts = some P) :
    ∃ k P', k ∈ counts ∧ f (t - k * d) = some P' ∧
      P = (if 0 < k then (d, k) :: P' else P') := by
  induction counts with
  | nil => simp [tryCounts] at h
  | cons k0 ks ih =>
    rw [tryCounts] at h
    cases hf : f (t - k0 * d) with
    | some r =>
      rw [hf] at h
      refine ⟨k0, r, List.mem_cons_self _ _, hf, ?_⟩
      exact (Option.some.inj h).symm
    | none =>
      rw [hf] at h
      obtain ⟨k, P', hk, hfk, hP⟩ := ih h
      exact ⟨k, P', List.mem_cons_of_mem _ hk, hfk, hP⟩

theorem tryCounts_isSome {f : Nat → Option Plan} {d t k : Nat} {counts : List Nat}
    (hk : k ∈ counts) (hf : (f (t - k * d)).isSome) :
    (tryCounts f d t counts).isSome := by
  induction counts with
  | nil => simp at hk
  | cons k0 ks ih =>
    rw [tryCounts]
    cases hf0 : f (t - k0 * d) with
    | some r => simp
    | none =>
      rcases List.mem_cons.mp hk with h | h
      · subst h
        rw [hf0] at hf
        simp at hf
      · exact ih h

theorem tryCounts_first {f : Nat → Option Plan} {d t : Nat} {counts : List Nat}
    {P : Plan} (hsort : counts.Pairwise (fun a b => b < a))
    (h : tryCounts f d t counts = some P) :
    ∃ k P', k ∈ counts ∧ f (t - k * d) = some P' ∧
      P = (if 0 < k then (d, k) :: P' else P') ∧
      ∀ k' ∈ counts, k < k' → f (t - k' * d) = none := by
  induction counts with
  | nil => simp [tryCounts] at h
  | cons k0 ks ih =>
    rw [tryCounts] at h
    rcases List.pairwise_cons.mp hsort with ⟨hk0, hks⟩
    cases hf : f (t - k0 * d) with
    | some r =>
      rw [hf] at h
      refine ⟨k0, r, List.mem_cons_self _ _, hf, (Option.some.inj h).symm, ?_⟩
      intro k' hk' hlt
      rcases List.mem_cons.mp hk' with h' | h'
      · omega
      · exact absurd hlt (by have := hk0 k' h'; omega)
    | none =>
      rw [hf] at h
      obtain ⟨k, P', hk, hfk, hP, hfirst⟩ := ih hks h
      refine ⟨k, P', List.mem_cons_of_mem _ hk, hfk, hP, ?_⟩
      intro k' hk' hlt
      rcases List.mem_cons.mp hk' with h' | h'
      · subst h'; exact hf
      · exact hfirst k' h' hlt

end ATM

namespace ATM

theorem le_of_mem_countRange_maxUse {k t d : Nat} {c : Int}
    (hk : k ∈ countRange (maxUse c t d)) : (k : Int) ≤ c ∧ k * d ≤ t := by
  rw [mem_countRange] at hk
  unfold maxUse at hk
  constructor
  · exact le_trans hk (min_le_left _ _)
  · have h2 : (k : Int) ≤ ((t / d : Nat) : Int) := le_trans hk (min_le_right _ _)
    have h3 : k ≤ t / d := by exact_mod_cast h2
    calc k * d ≤ (t / d) * d := Nat.mul_le_mul_right _ h3
      _ ≤ t := Nat.div_mul_le_self t d

theorem solve_sound {pairs : List (Nat × Int)} {t : Nat} {P : Plan}
    (h : solve pairs t = some P) :
    planSum P = t ∧ List.Sublist (P.map Prod.fst) (pairs.map Prod.fst) ∧
      ∀ d k, (d, k) ∈ P → 0 < k ∧ ∃ c, (d, c) ∈ pairs ∧ (k : Int) ≤ c := by
  induction pairs generalizing t P with
  | nil =>
    by_cases ht : t = 0
    · subst ht; rw [solve_zero] at h; cases h; simp [planSum]
    · rw [solve_nil ht] at h; cases h
  | cons p rest ih =>
    obtain ⟨d0, c0⟩ := p
    by_cases ht : t = 0
    · subst ht; rw [solve_zero] at h; cases h; simp [planSum]
    · rw [solve_cons ht] at h
      obtain ⟨k, P', hk, hsolve, hP⟩ := tryCounts_some_elim h
      obtain ⟨hkc, hkd⟩ := le_of_mem_countRange_maxUse hk
      obtain ⟨ihsum, ihsub, ihmem⟩ := ih hsolve
      subst hP
      by_cases hk0 : 0 < k
      · rw [if_pos hk0]
        refine ⟨?_, ?_, ?_⟩
        · show planSum ((d0, k) :: P') = t
          have : planSum ((d0, k) :: P') = d0 * k + planSum P' := by
            simp [planSum]
          rw [this, ihsum, Nat.mul_comm]
          exact Nat.add_sub_cancel' hkd
        · exact List.Sublist.cons₂ _ ihsub
        · intro d k' hmem
          rcases List.mem_cons.mp hmem with he | hm
          · cases he
            exact ⟨hk0, c0, List.mem_cons_self _ _, hkc⟩
          · obtain ⟨hpos, c, hc, hkc'⟩ := ihmem d k' hm
            exact ⟨hpos, c, List.mem_cons_of_mem _ hc, hkc'⟩
      · rw [if_neg hk0]
        have hke : k = 0 := by omega
        subst hke
        simp only [Nat.zero_mul, Nat.sub_zero] at ihsum hsolve
        refine ⟨ihsum, ihsub.cons _, ?_⟩
        intro d k' hm
        obtain ⟨hpos, c, hc, hkc'⟩ := ihmem d k' hm
        exact ⟨hpos, c, List.mem_cons_of_mem _ hc, hkc'⟩

theorem solve_complete {pairs : List (Nat × Int)} {q : List Nat} {t : Nat}
    (hfa : List.Forall₂ (fun (p : Nat × Int) (k : Nat) => (k : Int) ≤ p.2) pairs q)
    (hpos : ∀ p ∈ pairs, 0 < p.1)
    (hsum : (List.zipWith (fun (p : Nat × Int) (k : Nat) => k * p.1) pairs q).sum = t) :
    (solve pairs t).isSome := by
  revert hpos
  induction hfa generalizing t with
  | nil =>
    intro hpos
    simp at hsum
    subst hsum
    rw [solve_zero]; simp
  | cons hpk hfa ih =>
    intro hpos
    rename_i p k0 pairs' q'
    obtain ⟨d0, c0⟩ := p
    by_cases ht : t = 0
    · subst ht; rw [solve_zero]; simp
    · rw [solve_cons ht]
      have hd0 : 0 < d0 := hpos _ (List.mem_cons_self _ _)
      simp only [List.zipWith_cons_cons, List.sum_cons] at hsum
      have hk0d : k0 * d0 ≤ t := by omega
      have hk0div : k0 ≤ t / d0 := (Nat.le_div_iff_mul_le hd0).mpr hk0d
      have hmem : k0 ∈ countRange (maxUse c0 t d0) := by
        rw [mem_countRange]
        unfold maxUse
        exact le_min hpk (by exact_mod_cast hk0div)
      apply tryCounts_isSome hmem
      exact ih (by omega) (fun p hp => hpos p (List.mem_cons_of_mem _ hp))

end ATM

namespace ATM

theorem insertDesc_perm (p : Nat × Int) (l : List (Nat × Int)) :
    List.Perm (insertDesc p l) (p :: l) := by
  induction l with
  | nil => rfl
  | cons q qs ih =>
    rw [insertDesc]
    split
    · exact List.Perm.refl _
    · exact (ih.cons q).trans (List.Perm.swap p q qs)

theorem sortDesc_perm (inv : Inv) : List.Perm (sortDesc inv) inv := by
  induction inv with
  | nil => rfl
  | cons p rest ih =>
    show List.Perm (insertDesc p (sortDesc rest)) (p :: rest)
    exact (insertDesc_perm p (sortDesc rest)).trans (ih.cons p)

theorem mem_sortDesc {inv : Inv} {p : Nat × Int} : p ∈ sortDesc inv ↔ p ∈ inv :=
  (sortDesc_perm inv).mem_iff

theorem nodupKeys_sortDesc {inv : Inv} (h : NodupKeys inv) : NodupKeys (sortDesc inv) :=
  (((sortDesc_perm inv).map Prod.fst).nodup_iff).mpr h

theorem keys_pos_sortDesc {inv : Inv} (h : ∀ p ∈ inv, 0 < p.1) :
    ∀ p ∈ sortDesc inv, 0 < p.1 :=
  fun p hp => h p (mem_sortDesc.mp hp)

theorem lookup?_eq_some_of_mem {inv : Inv} {d : Nat} {c : Int}
    (hnd : NodupKeys inv) (hm : (d, c) ∈ inv) : lookup? inv d = some c := by
  induction inv with
  | nil => simp at hm
  | cons p rest ih =>
    rw [lookup?]
    rcases List.mem_cons.mp hm with he | hmem
    · subst he; simp
    · have hd : p.1 ≠ d := by
        intro he
        have : d ∈ rest.map Prod.fst := List.mem_map.mpr ⟨(d, c), hmem, rfl⟩
        rw [NodupKeys, keysOf, List.map_cons, List.nodup_cons] at hnd
        exact hnd.1 (he ▸ this)
      rw [if_neg hd]
      apply ih _ hmem
      rw [NodupKeys, keysOf, List.map_cons, List.nodup_cons] at hnd
      exact hnd.2

theorem lookup?_map_val (f : Nat → Int → Int) (inv : Inv) (x : Nat) :
    lookup? (inv.map (fun p => (p.1, f p.1 p.2))) x = (lookup? inv x).map (f x) := by
  induction inv with
  | nil => simp [lookup?]
  | cons p rest ih =>
    simp only [List.map_cons, lookup?]
    by_cases hx : p.1 = x
    · subst hx; simp
    · simp [hx, ih]

end ATM

namespace ATM

theorem planCountI_eq_zero {plan : Plan} {d : Nat} (h : ¬ d ∈ plan.map Prod.fst) :
    planCountI plan d = 0 := by
  induction plan with
  | nil => rfl
  | cons q qs ih =>
    simp only [List.map_cons, List.mem_cons, not_or] at h
    have h1 : q.1 ≠ d := fun he => h.1 he.symm
    have h2 := ih h.2
    unfold planCountI at h2 ⊢
    simp only [List.map_cons, List.sum_cons, if_neg h1, h2, zero_add]

theorem planCountI_eq_of_mem {plan : Plan} {d : Nat} {k : Nat}
    (hnd : (plan.map Prod.fst).Nodup) (hm : (d, k) ∈ plan) :
    planCountI plan d = k := by
  induction plan with
  | nil => simp at hm
  | cons q qs ih =>
    simp only [List.map_cons, List.nodup_cons] at hnd
    rcases List.mem_cons.mp hm with he | hmem
    · subst he
      have h0 : planCountI qs d = 0 := planCountI_eq_zero (by simpa using hnd.1)
      unfold planCountI at h0 ⊢
      simp [h0]
    · have hq : q.1 ≠ d := by
        intro he
        exact hnd.1 (he ▸ List.mem_map.mpr ⟨(d, k), hmem, rfl⟩)
      have h2 := ih hnd.2 hmem
      unfold planCountI at h2 ⊢
      simp only [List.map_cons, List.sum_cons, if_neg hq, h2, zero_add]

theorem decKey_eq_map (inv : Inv) (d : Nat) (k : Nat) :
    decKey inv d k = inv.map (fun p => (p.1, p.2 - (if p.1 = d then (k : Int) else 0))) := by
  unfold decKey
  apply List.map_congr_left
  intro p _
  by_cases h : p.1 = d
  · simp [h]
  · simp [h]

theorem applyPlan_eq_map (inv : Inv) (plan : Plan) :
    applyPlan inv plan = inv.map (fun p => (p.1, p.2 - planCountI plan p.1)) := by
  induction plan generalizing inv with
  | nil => simp [applyPlan, planCountI]
  | cons q qs ih =>
    show applyPlan (decKey inv q.1 q.2) qs = _
    rw [ih, decKey_eq_map, List.map_map]
    apply List.map_congr_left
    intro p _
    simp only [Function.comp_apply, planCountI, List.map_cons, List.sum_cons]
    by_cases h : p.1 = q.1
    · rw [if_pos h, if_pos h.symm, sub_sub]
    · rw [if_neg h, if_neg (fun he => h he.symm), sub_zero, zero_add]

end ATM

namespace ATM

theorem withdraw_ok_elim {inv : Inv} {a : Int} {plan : Plan}
    (h : (withdraw inv a).res = .ok plan) :
    0 < a ∧ a % 100 = 0 ∧ a ≤ total_balance inv ∧
      get_breakdown inv a.toNat = some plan ∧
      (withdraw inv a).cash = applyPlan inv plan ∧
      (withdraw inv a).saved = [applyPlan inv plan] := by
  unfold withdraw at h ⊢
  split_ifs at h ⊢ with h1 h2 h3
  cases hbd : get_breakdown inv a.toNat with
  | none => rw [hbd] at h; simp at h
  | some P =>
    rw [hbd] at h
    cases P with
    | nil => simp at h
    | cons q qs =>
      simp only at h
      have hp : plan = q :: qs := (Except.ok.inj h).symm
      subst hp
      refine ⟨by omega, by omega, by omega, rfl, by simp, by simp⟩

theorem incKey_eq_map (inv : Inv) (d : Nat) (k : Int) :
    incKey inv d k = inv.map (fun p => (p.1, p.2 + (if p.1 = d then k else 0))) := by
  unfold incKey
  apply List.map_congr_left
  intro p _
  by_cases h : p.1 = d
  · simp [h]
  · simp [h]

end ATM

namespace ATM

theorem withdraw_error_elim {inv : Inv} {a : Int} {e : ATMErr}
    (h : (withdraw inv a).res = .error e) :
    (withdraw inv a).cash = inv ∧ (withdraw inv a).saved = [] := by
  unfold withdraw at h ⊢
  split_ifs at h ⊢ <;>
    first
      | exact ⟨rfl, rfl⟩
      | (cases hbd : get_breakdown inv a.toNat with
          | none => exact ⟨rfl, rfl⟩
          | some P =>
            cases P with
            | nil => exact ⟨rfl, rfl⟩
            | cons q qs => rw [hbd] at h; simp at h)

theorem lookup?_subCount (inv : Inv) (plan : Plan) (x : Nat) :
    lookup? (inv.map (fun p => (p.1, p.2 - planCountI plan p.1))) x =
      (lookup? inv x).map (fun v => v - planCountI plan x) :=
  lookup?_map_val (fun y v => v - planCountI plan y) inv x

theorem lookup?_incKey (inv : Inv) (d : Nat) (k : Int) (x : Nat) :
    lookup? (incKey inv d k) x =
      (lookup? inv x).map (fun v => v + (if x = d then k else 0)) := by
  rw [incKey_eq_map]
  exact lookup?_map_val (fun y v => v + (if y = d then k else 0)) inv x

theorem convertKeys_none_of_badKey {entries : List (JKey × JVal)} {v : JVal}
    (h : (JKey.badKey, v) ∈ entries) : convertKeys entries = none := by
  induction entries with
  | nil => simp at h
  | cons e rest ih =>
    obtain ⟨k0, v0⟩ := e
    cases k0 with
    | badKey => rfl
    | intKey n =>
      rcases List.mem_cons.mp h with he | hm
      · cases he
      · show (convertKeys rest).map _ = none
        rw [ih hm]
        rfl

/-- C10: whenever `withdraw` fails (with `InvalidAmount` or
`InsufficientFunds`), the in-memory inventory is left exactly as it was
before the call and no state is persisted: every error is raised before
any mutation of the inventory. -/
theorem withdraw_error_frame {inv : Inv} {a : Int} {e : ATMErr}
    (h : (withdraw inv a).res = .error e) :
    (withdraw inv a).cash = inv ∧ (withdraw inv a).saved = [] :=
  withdraw_error_elim h

/-- Witness for `withdraw_error_frame`: the failing call `withdraw(150)`
on the default inventory leaves it untouched and persists nothing. -/
theorem withdraw_error_frame_w :
    (withdraw default_cash 150).cash = default_cash ∧
      (withdraw default_cash 150).saved = [] :=
  @withdraw_error_frame default_cash 150
    (.invalidAmount "Amount must be a multiple of 100.") (by decide)

/-- C6: when the amount passes the positivity, modulus and
aggregate-funds checks but the solver finds no combination, `withdraw`
fails with the distinct `InsufficientFunds` message. -/
theorem withdraw_no_combo_insufficient {inv : Inv} {a : Int}
    (h0 : 0 < a) (h100 : a % 100 = 0) (hle : a ≤ total_balance inv)
    (hnone : get_breakdown inv a.toNat = none) :
    (withdraw inv a).res =
      .error (.insufficientFunds "Cannot dispense this amount with available notes.") := by
  unfold withdraw
  split_ifs with h1 h2 h3
  · exact absurd h0 (not_lt.mpr h1)
  · exact absurd h100 h2
  · exact absurd h3 (not_lt.mpr hle)
  · rw [hnone]

/-- Witness for `withdraw_no_combo_insufficient`: with inventory
{500: 1, 200: 0, 100: 0} the total value 500 covers 300, yet
`withdraw(300)` fails with `InsufficientFunds`. -/
theorem withdraw_no_combo_insufficient_w :
    (withdraw [(500, 1), (200, 0), (100, 0)] 300).res =
        .error (.insufficientFunds "Cannot dispense this amount with available notes.") ∧
      (300 : Int) ≤ total_balance [(500, 1), (200, 0), (100, 0)] :=
  ⟨@withdraw_no_combo_insufficient [(500, 1), (200, 0), (100, 0)] 300
      (by decide) (by decide) (by decide) (by decide),
    by decide⟩

/-- C4 (amended): `withdraw` rejects a non-positive amount, and an amount
that is not a multiple of the literal 100, with `InvalidAmount`; the
modulus check is hardcoded to 100 rather than computed from the smallest
configured denomination. `withdraw(0)`, `withdraw(-100)` and
`withdraw(150)` all fail with `InvalidAmount` under the default
configuration. -/
theorem withdraw_invalid_amount :
    (∀ (inv : Inv) (a : Int), a ≤ 0 →
        (withdraw inv a).res = .error (.invalidAmount "Amount must be positive.")) ∧
      (∀ (inv : Inv) (a : Int), 0 < a → a % 100 ≠ 0 →
        (withdraw inv a).res = .error (.invalidAmount "Amount must be a multiple of 100.")) ∧
      (withdraw default_cash 0).res = .error (.invalidAmount "Amount must be positive.") ∧
      (withdraw default_cash (-100)).res = .error (.invalidAmount "Amount must be positive.") ∧
      (withdraw default_cash 150).res =
        .error (.invalidAmount "Amount must be a multiple of 100.") := by
  refine ⟨?_, ?_, by decide, by decide, by decide⟩
  · intro inv a h
    unfold withdraw
    rw [if_pos h]
  · intro inv a h0 h100
    unfold withdraw
    rw [if_neg (not_le.mpr h0), if_pos h100]

/-- C4 counterexample: with inventory {200: 10} the smallest configured
denomination is 200 and 300 is no multiple of it, yet `withdraw(300)`
passes the hardcoded `% 100` validation and fails only later — with
`InsufficientFunds`, not the `InvalidAmount` the claim requires. -/
theorem withdraw_modulus_hardcoded_cex :
    minDenom [(200, 10)] = 200 ∧ (300 : Int) % 200 ≠ 0 ∧
      (withdraw [(200, 10)] 300).res =
        .error (.insufficientFunds "Cannot dispense this amount with available notes.") := by
  decide

/-- C8: persisting the inventory to the state file and loading it back
reproduces the identical inventory. -/
theorem json_roundtrip (inv : Inv) : json_load_cash (json_dump_cash inv) = inv := by
  induction inv with
  | nil => rfl
  | cons p rest ih =>
    show (Nat.ofDigits 10 (Nat.digits 10 p.1), p.2) :: json_load_cash (json_dump_cash rest)
        = p :: rest
    rw [Nat.ofDigits_digits, ih]

end ATM

namespace ATM

/-- C1: for every amount that is positive, a multiple of 100 (the
minimum denomination of the default configuration — the modulus
`withdraw` checks), at most the total inventory value, and expressible
in the available notes, `withdraw(amount)` returns a plan whose
`sum(denom * count)` equals the amount exactly and whose count for each
denomination is at most that denomination's inventory count before the
call. -/
theorem withdraw_returns_exact_plan {inv : Inv} {a : Int}
    (hkeys : ∀ p ∈ inv, 0 < p.1) (hnd : NodupKeys inv)
    (h0 : 0 < a) (h100 : a % 100 = 0) (hle : a ≤ total_balance inv)
    (hex : Expressible inv a.toNat) :
    ∃ P, (withdraw inv a).res = .ok P ∧ (planSum P : Int) = a ∧
      ∀ d k, (d, k) ∈ P → ∃ c, lookup? inv d = some c ∧ (k : Int) ≤ c := by
  obtain ⟨q, hfa, hsum⟩ := hex
  have hsome := solve_complete hfa (keys_pos_sortDesc hkeys) hsum
  obtain ⟨P, hP⟩ := Option.isSome_iff_exists.mp hsome
  have hgb : get_breakdown inv a.toNat = some P := hP
  have hsound := solve_sound hP
  have hPlan : planSum P = a.toNat := hsound.1
  have hPne : P ≠ [] := by
    intro he
    subst he
    simp [planSum] at hPlan
    omega
  have hres : (withdraw inv a).res = .ok P := by
    unfold withdraw
    split_ifs with h1 h2 h3
    · exact absurd h0 (not_lt.mpr h1)
    · exact absurd h100 h2
    · exact absurd h3 (not_lt.mpr hle)
    · rw [hgb]
      cases P with
      | nil => exact absurd rfl hPne
      | cons q0 qs => rfl
  refine ⟨P, hres, ?_, ?_⟩
  · rw [hPlan]
    omega
  · intro d k hm
    obtain ⟨hkpos, c, hc, hkc⟩ := hsound.2.2 d k hm
    exact ⟨c, lookup?_eq_some_of_mem hnd (mem_sortDesc.mp hc), hkc⟩

/-- Witness for `withdraw_returns_exact_plan`: `withdraw(300)` on the
default inventory (300 = 0·500 + 1·200 + 1·100 is expressible). -/
theorem withdraw_returns_exact_plan_w :
    ∃ P, (withdraw default_cash 300).res = .ok P ∧ (planSum P : Int) = 300 ∧
      ∀ d k, (d, k) ∈ P → ∃ c, lookup? default_cash d = some c ∧ (k : Int) ≤ c :=
  @withdraw_returns_exact_plan default_cash 300 (by decide) (by decide) (by decide)
    (by decide) (by decide) ⟨[0, 1, 1], by decide, by decide⟩

/-- C2: after a successful `withdraw`, the count of each denomination in
the plan drops by exactly the plan's count, and every denomination
absent from the plan is unchanged. -/
theorem withdraw_decrements_by_plan {inv : Inv} {a : Int} {plan : Plan}
    (hnd : NodupKeys inv) (h : (withdraw inv a).res = .ok plan) :
    (∀ d k, (d, k) ∈ plan →
        lookup? ((withdraw inv a).cash) d = (lookup? inv d).map (fun c => c - (k : Int))) ∧
      ∀ d, ¬ d ∈ plan.map Prod.fst → lookup? ((withdraw inv a).cash) d = lookup? inv d := by
  obtain ⟨_, _, _, hgb, hcash, _⟩ := withdraw_ok_elim h
  have hplan_nd : (plan.map Prod.fst).Nodup :=
    (solve_sound hgb).2.1.nodup (nodupKeys_sortDesc hnd)
  rw [hcash, applyPlan_eq_map]
  constructor
  · intro d k hm
    rw [lookup?_subCount, planCountI_eq_of_mem hplan_nd hm]
  · intro d hd
    rw [lookup?_subCount, planCountI_eq_zero hd]
    cases lookup? inv d with
    | none => rfl
    | some v => show some (v - 0) = some v; rw [sub_zero]

/-- Witness for `withdraw_decrements_by_plan`: `withdraw(300)` on the
default inventory returns plan {200:1, 100:1}; 200 drops from 20 to 19
and 500 (absent from the plan) stays at 20. -/
theorem withdraw_decrements_by_plan_w :
    lookup? ((withdraw default_cash 300).cash) 200 = some 19 ∧
      lookup? ((withdraw default_cash 300).cash) 500 = some 20 := by
  have h := @withdraw_decrements_by_plan default_cash 300 [(200, 1), (100, 1)]
    (by decide) (by decide)
  exact ⟨(h.1 200 1 (by decide)).trans (by decide), (h.2 500 (by decide)).trans (by decide)⟩
end ATM

namespace ATM

theorem allNonneg_iff {inv : Inv} : allNonneg inv = true ↔ ∀ p ∈ inv, 0 ≤ p.2 := by
  simp [allNonneg, List.all_eq_true]

theorem keysOf_map_val (f : Nat → Int → Int) (inv : Inv) :
    keysOf (inv.map (fun p => (p.1, f p.1 p.2))) = keysOf inv := by
  unfold keysOf
  rw [List.map_map]
  apply List.map_congr_left
  intro p _
  rfl

/-- C3 (amended): `add_cash` fails with `InvalidAmount` when the
denomination is not in the accepted set, leaving the inventory unchanged
and persisting nothing; it performs no negativity check on the count:
for an accepted denomination it increments that denomination's count by
`count` — even when `count` is negative — leaves every other
denomination unchanged, and persists the result. -/
theorem add_cash_spec (inv : Inv) (d : Nat) (c : Int) :
    (hasKey inv d = false →
        add_cash inv d c =
          ⟨.error (.invalidAmount ("Invalid denomination " ++ toString d)), inv, []⟩) ∧
      (hasKey inv d = true →
        lookup? ((add_cash inv d c).cash) d = (lookup? inv d).map (fun v => v + c) ∧
          (∀ x, x ≠ d → lookup? ((add_cash inv d c).cash) x = lookup? inv x) ∧
          (add_cash inv d c).saved = [(add_cash inv d c).cash]) := by
  by_cases hk : hasKey inv d = true
  · have hA : add_cash inv d c =
        ⟨.ok ("Admin added " ++ toString c ++ " notes of ₹" ++ toString d),
          incKey inv d c, [incKey inv d c]⟩ := by
      unfold add_cash
      rw [if_neg (not_not_intro hk)]
    refine ⟨fun hfalse => absurd hk (by simp [hfalse]), fun _ => ?_⟩
    rw [hA]
    refine ⟨?_, ?_, rfl⟩
    · show lookup? (incKey inv d c) d = _
      rw [lookup?_incKey]
      cases lookup? inv d with
      | none => rfl
      | some v => simp
    · intro x hx
      show lookup? (incKey inv d c) x = _
      rw [lookup?_incKey]
      cases lookup? inv x with
      | none => rfl
      | some v => simp [hx]
  · have hA : add_cash inv d c =
        ⟨.error (.invalidAmount ("Invalid denomination " ++ toString d)), inv, []⟩ := by
      unfold add_cash
      rw [if_pos hk]
    exact ⟨fun _ => hA, fun htrue => absurd htrue hk⟩

/-- C3 counterexample: `add_cash(100, -5)` on the default inventory is
not rejected: it succeeds, decrements the 100-note count to 15 and
persists, although the claim requires `InvalidAmount` for a negative
count. -/
theorem add_cash_negative_count_cex :
    (add_cash default_cash 100 (-5)).res = .ok "Admin added -5 notes of ₹100" ∧
      (-5 : Int) < 0 ∧
      (add_cash default_cash 100 (-5)).cash = [(500, 20), (200, 20), (100, 15)] ∧
      (add_cash default_cash 100 (-5)).saved = [[(500, 20), (200, 20), (100, 15)]] := by
  decide

/-- C5 (amended): when the persisted state file is present but
unparseable, or parseable with a non-integer key, `load_state` logs the
corruption, keeps the hardcoded default mapping {500:20, 200:20,
100:20} in memory and persists it; non-integer *values* are not
validated — such entries load as-is with no reset. -/
theorem load_state_corruption_resets :
    (load_state defaultCashJ .unparseable = ⟨defaultCashJ, [defaultCashJ], true⟩) ∧
      ∀ (entries : List (JKey × JVal)) (v : JVal), (JKey.badKey, v) ∈ entries →
        load_state defaultCashJ (.parsed entries) = ⟨defaultCashJ, [defaultCashJ], true⟩ := by
  refine ⟨rfl, ?_⟩
  intro entries v hv
  have hred : load_state defaultCashJ (.parsed entries) =
      (match convertKeys entries with
        | some newCash => ⟨newCash, [], false⟩
        | none => ⟨defaultCashJ, [defaultCashJ], true⟩) := rfl
  rw [hred, convertKeys_none_of_badKey hv]

/-- C5 counterexample: a parsed state file whose key 100 is an integer
but whose value is not an integer is loaded as-is: no corruption log,
no reset to the default, nothing persisted — the claim requires a reset
for non-integer values. -/
theorem load_state_nonint_value_cex :
    load_state defaultCashJ (.parsed [(.intKey 100, .jother)]) =
        ⟨[(100, .jother)], [], false⟩ ∧
      ¬ load_state defaultCashJ (.parsed [(.intKey 100, .jother)]) =
          ⟨defaultCashJ, [defaultCashJ], true⟩ := by
  decide

/-- C7: at each level the solver tries counts of the current
denomination from `maxUse = min(Inventory[denom], target div denom)`
down to 0 and keeps the first success, so the returned plan uses as
many notes of the largest usable denomination as possible; concretely,
`withdraw(300)` on {500:0, 200:1, 100:1} succeeds with exactly the plan
{200:1, 100:1}. -/
theorem solver_first_success_maximal :
    (∀ (d : Nat) (c : Int) (rest : List (Nat × Int)) (t : Nat) (P : Plan),
        t ≠ 0 → solve ((d, c) :: rest) t = some P →
        ∃ k P', k ∈ countRange (maxUse c t d) ∧ solve rest (t - k * d) = some P' ∧
          P = (if 0 < k then (d, k) :: P' else P') ∧
          ∀ k' : Nat, k < k' → (k' : Int) ≤ maxUse c t d → solve rest (t - k' * d) = none) ∧
      withdraw [(500, 0), (200, 1), (100, 1)] 300 =
        ⟨.ok [(200, 1), (100, 1)], [(500, 0), (200, 0), (100, 0)],
          [[(500, 0), (200, 0), (100, 0)]]⟩ := by
  constructor
  · intro d c rest t P ht h
    rw [solve_cons ht] at h
    obtain ⟨k, P', hk, hs, hP, hfirst⟩ := tryCounts_first (countRange_pairwise _) h
    exact ⟨k, P', hk, hs, hP, fun k' hlt hle => hfirst k' (mem_countRange.mpr hle) hlt⟩
  · decide

/-- C9 counterexample: `add_cash(100, -25)` from the default state
completes successfully, leaves the 100-note count at -5 and persists
that negative count — the claim forbids a negative count at rest or in
the persisted state. -/
theorem add_cash_persists_negative_cex :
    (add_cash default_cash 100 (-25)).res = .ok "Admin added -25 notes of ₹100" ∧
      (add_cash default_cash 100 (-25)).cash = [(500, 20), (200, 20), (100, -5)] ∧
      (add_cash default_cash 100 (-25)).saved = [[(500, 20), (200, 20), (100, -5)]] ∧
      allNonneg [(500, 20), (200, 20), (100, -5)] = false := by
  decide

/-- C9 (amended): provided `add_cash` is called with a non-negative
count — as the CLI shell guarantees — both mutating operations preserve
the invariant: the key set is unchanged and every count stays
non-negative, in memory and in every state passed to `save_state`. -/
theorem inventory_invariant_preserved {inv : Inv} {d : Nat} {c a : Int}
    (hnd : NodupKeys inv) (hnn : allNonneg inv = true) (hc : 0 ≤ c) :
    (keysOf (add_cash inv d c).cash = keysOf inv ∧
        allNonneg (add_cash inv d c).cash = true ∧
        (add_cash inv d c).saved.all allNonneg = true) ∧
      (keysOf (withdraw inv a).cash = keysOf inv ∧
        allNonneg (withdraw inv a).cash = true ∧
        (withdraw inv a).saved.all allNonneg = true) := by
  constructor
  · by_cases hkd : hasKey inv d = true
    · have hA : add_cash inv d c =
          ⟨.ok ("Admin added " ++ toString c ++ " notes of ₹" ++ toString d),
            incKey inv d c, [incKey inv d c]⟩ := by
        unfold add_cash
        rw [if_neg (not_not_intro hkd)]
      rw [hA]
      have hnn' : allNonneg (incKey inv d c) = true := by
        rw [incKey_eq_map, allNonneg_iff]
        intro q hq
        obtain ⟨p, hp, hpe⟩ := List.mem_map.mp hq
        subst hpe
        have h2 := allNonneg_iff.mp hnn p hp
        by_cases hpd : p.1 = d
        · simp only [if_pos hpd]
          omega
        · simp only [if_neg hpd]
          omega
      refine ⟨?_, hnn', by simp [hnn']⟩
      show keysOf (incKey inv d c) = keysOf inv
      rw [incKey_eq_map]
      exact keysOf_map_val (fun y v => v + (if y = d then c else 0)) inv
    · have hA : add_cash inv d c =
          ⟨.error (.invalidAmount ("Invalid denomination " ++ toString d)), inv, []⟩ := by
        unfold add_cash
        rw [if_pos hkd]
      rw [hA]
      exact ⟨rfl, hnn, rfl⟩
  · cases hres : (withdraw inv a).res with
    | error e =>
      obtain ⟨hc', hs⟩ := withdraw_error_elim hres
      rw [hc', hs]
      exact ⟨rfl, hnn, rfl⟩
    | ok plan =>
      obtain ⟨_, _, _, hgb, hcash, hsaved⟩ := withdraw_ok_elim hres
      have hplan_nd : (plan.map Prod.fst).Nodup :=
        (solve_sound hgb).2.1.nodup (nodupKeys_sortDesc hnd)
      have hbound : ∀ p ∈ inv, planCountI plan p.1 ≤ p.2 := by
        intro p hp
        by_cases hmem : p.1 ∈ plan.map Prod.fst
        · obtain ⟨⟨d0, k0⟩, hq, hq1⟩ := List.mem_map.mp hmem
          simp only at hq1
          subst hq1
          rw [planCountI_eq_of_mem hplan_nd hq]
          obtain ⟨hkpos, c0, hc0, hkc0⟩ := (solve_sound hgb).2.2 p.1 k0 hq
          have h1 : lookup? inv p.1 = some c0 :=
            lookup?_eq_some_of_mem hnd (mem_sortDesc.mp hc0)
          have h2 : lookup? inv p.1 = some p.2 := lookup?_eq_some_of_mem hnd hp
          rw [h1] at h2
          have : c0 = p.2 := Option.some.inj h2
          omega
        · rw [planCountI_eq_zero hmem]
          exact allNonneg_iff.mp hnn p hp
      rw [hcash, hsaved, applyPlan_eq_map]
      have hnn' : allNonneg (inv.map (fun p => (p.1, p.2 - planCountI plan p.1))) = true := by
        rw [allNonneg_iff]
        intro q hq
        obtain ⟨p, hp, hpe⟩ := List.mem_map.mp hq
        subst hpe
        have h1 := hbound p hp
        have h2 := allNonneg_iff.mp hnn p hp
        simp only
        omega
      exact ⟨keysOf_map_val (fun y v => v - planCountI plan y) inv, hnn',
        by simp [hnn']⟩

/-- Witness for `inventory_invariant_preserved`: `add_cash(100, 5)` and
`withdraw(300)` on the default inventory. -/
theorem inventory_invariant_preserved_w :
    (keysOf (add_cash default_cash 100 5).cash = keysOf default_cash ∧
        allNonneg (add_cash default_cash 100 5).cash = true ∧
        (add_cash default_cash 100 5).saved.all allNonneg = true) ∧
      (keysOf (withdraw default_cash 300).cash = keysOf default_cash ∧
        allNonneg (withdraw default_cash 300).cash = true ∧
        (withdraw default_cash 300).saved.all allNonneg = true) :=
  @inventory_invariant_preserved default_cash 100 5 300 (by decide) (by decide) (by decide)

end ATM
